import Mathlib

/-!
Verification development for the sentiment ingestion pipeline
(`src/index.js`, `src/routes/sentiment.js`, processor module).

The pipeline's pure core is embedded shallowly:
  * the PII redaction stage of `analyzeText` (two chained JavaScript
    `String.replace` calls with global regexes, one for e-mail addresses and
    one for phone numbers) is embedded as executable scanners over `List Char`
    that implement the leftmost, greedy, backtracking match semantics of the
    two concrete regexes;
  * the histogram binner `Math.min(10, Math.max(0, Math.round((score+1)*5)))`
    is embedded over `ℚ` with JavaScript's `Math.round` (half towards +∞,
    i.e. `⌊x + 1/2⌋`);
  * the per-row pipeline (header normalization, column lookup with the
    `|| ''` fallback, neutral score for empty text, bin increment) and the
    fold over the row stream;
  * the HTTP-level control flow of both ingestion endpoints and both display
    endpoints, as functions from the environment's answers (stream outcome,
    store answers) to response outcomes, where `crash` stands for an
    unhandled exception / unhandled promise rejection: no response is ever
    delivered to the caller.

The sentiment scorer (VADER `polarity_scores(...).compound`) is an external
collaborator and is passed in as an oracle `vader : String → ℚ`.
-/

/-! ## Character classes of the two redaction regexes

From `processor.js` (`src/unnamed/part_003`):
  e-mail : `/[a-z0-9._%+-]+@[a-z0-9.-]+\.[a-z]{2,}/gi` replaced by `[EMAIL]`
  phone  : `/\b\d{3}[-.]?\d{3}[-.]?\d{4}\b/g`           replaced by `[PHONE]`
The `i` flag on the e-mail regex makes its letter ranges case-insensitive.
`\d` is `[0-9]`; `\w` (for `\b`) is `[A-Za-z0-9_]`.
-/

def isLowerAlpha (c : Char) : Bool := 'a' ≤ c && c ≤ 'z'

def isUpperAlpha (c : Char) : Bool := 'A' ≤ c && c ≤ 'Z'

def isAlpha (c : Char) : Bool := isLowerAlpha c || isUpperAlpha c

def isDigit (c : Char) : Bool := '0' ≤ c && c ≤ '9'

/-- Class `[a-z0-9._%+-]` under the `i` flag: the local part of an e-mail. -/
def isLocalChar (c : Char) : Bool :=
  isAlpha c || isDigit c || c = '.' || c = '_' || c = '%' || c = '+' || c = '-'

/-- Class `[a-z0-9.-]` under the `i` flag: the domain part of an e-mail. -/
def isDomainChar (c : Char) : Bool :=
  isAlpha c || isDigit c || c = '.' || c = '-'

/-- Class `[a-z]` under the `i` flag: the top-level-domain part. -/
def isTldChar (c : Char) : Bool := isAlpha c

/-- Class `[-.]`: the optional separators inside a phone number. -/
def isSep (c : Char) : Bool := c = '-' || c = '.'

/-- JavaScript word characters `\w = [A-Za-z0-9_]`, the basis of `\b`. -/
def isWordChar (c : Char) : Bool := isAlpha c || isDigit c || c = '_'

/-- Length of the maximal prefix run of characters satisfying `p`
(how far a greedy `[...]+` / `[...]*` advances). -/
def runCount (p : Char → Bool) : List Char → Nat
  | [] => 0
  | c :: cs => if p c then runCount p cs + 1 else 0

/-- First-preferred choice between two alternatives, as produced by
backtracking: the second alternative is tried only if the first fails. -/
def altO (a b : Option Nat) : Option Nat :=
  match a with
  | some n => some n
  | none => b

/-! ## The e-mail matcher

`matchEmail s` decides whether `/[a-z0-9._%+-]+@[a-z0-9.-]+\.[a-z]{2,}/i`
matches a prefix of `s`, returning the length of the match the JavaScript
engine selects (greedy with backtracking).  The engine consumes the maximal
local run (the character after a shorter run would be another local
character, never `@`, so the run length is forced), requires `@`, then takes
the maximal domain run of length `k` and backtracks the position `j` of the
literal dot from `k - 1` down to `1`; for each `j` the tail `[a-z]{2,}`
greedily takes the maximal letter run, which must have length at least 2. -/

def tldRun (s2 : List Char) (j : Nat) : Nat := runCount isTldChar (s2.drop (j + 1))

/-- Try the literal-dot position `j` inside the domain run: the character at
`j` must be a dot and at least two letters must follow. The resulting match
length inside the domain section is `j + 1 + tldRun`. -/
def domTry (s2 : List Char) (j : Nat) : Option Nat :=
  if s2.get? j = some '.' && decide (2 ≤ tldRun s2 j) then
    some (j + 1 + tldRun s2 j)
  else none

/-- Backtrack the dot position from `j` down to `1` (the domain run before
the dot must be nonempty), first success wins. -/
def domSearch (s2 : List Char) : Nat → Option Nat
  | 0 => none
  | j + 1 => altO (domTry s2 (j + 1)) (domSearch s2 j)

def matchEmail (s : List Char) : Option Nat :=
  let l := runCount isLocalChar s
  if l = 0 then none
  else if s.get? l = some '@' then
    match domSearch (s.drop (l + 1)) (runCount isDomainChar (s.drop (l + 1)) - 1) with
    | some m => some (l + 1 + m)
    | none => none
  else none

/-! ## The phone matcher

`matchPhone pw s` decides whether `/\b\d{3}[-.]?\d{3}[-.]?\d{4}\b/` matches a
prefix of `s`, where `pw` records whether the character immediately before
`s` is a word character (`false` at the start of the string).  The leading
`\b` followed by `\d` succeeds exactly when the previous character is not a
word character and the first character is a digit.  Each optional separator
`[-.]?` greedily tries to consume a separator first and falls back to
consuming nothing, as regex backtracking does. -/

/-- Consume exactly `n` digits, returning the rest. -/
def digitsN : Nat → List Char → Option (List Char)
  | 0, s => some s
  | _ + 1, [] => none
  | n + 1, c :: cs => if isDigit c then digitsN n cs else none

/-- Trailing `\b`: the previous character is a digit (a word character), so
the boundary holds exactly when the input is exhausted or the next character
is not a word character. -/
def boundaryOk (s : List Char) : Bool :=
  match s with
  | [] => true
  | c :: _ => !isWordChar c

/-- Final `\d{4}\b` of the phone pattern; `acc` counts characters consumed so far. -/
def phoneEnd (s : List Char) (acc : Nat) : Option Nat :=
  match digitsN 4 s with
  | some r => if boundaryOk r then some (acc + 4) else none
  | none => none

/-- Second `[-.]?` followed by `\d{4}\b`. -/
def phoneSepEnd (s : List Char) (acc : Nat) : Option Nat :=
  match s with
  | c :: r => if isSep c then altO (phoneEnd r (acc + 1)) (phoneEnd (c :: r) acc)
              else phoneEnd (c :: r) acc
  | [] => phoneEnd [] acc

/-- Second digit group `\d{3}` followed by `[-.]?\d{4}\b`. -/
def phoneSecond (s : List Char) (acc : Nat) : Option Nat :=
  match digitsN 3 s with
  | some r => phoneSepEnd r (acc + 3)
  | none => none

/-- First `[-.]?` followed by `\d{3}[-.]?\d{4}\b`. -/
def phoneSepSecond (s : List Char) (acc : Nat) : Option Nat :=
  match s with
  | c :: r => if isSep c then altO (phoneSecond r (acc + 1)) (phoneSecond (c :: r) acc)
              else phoneSecond (c :: r) acc
  | [] => phoneSecond [] acc

def matchPhone (pw : Bool) (s : List Char) : Option Nat :=
  if pw then none
  else match digitsN 3 s with
    | some r => phoneSepSecond r 3
    | none => none

/-! ## The two global replacements

JavaScript `str.replace(re_with_g, tok)` determines all matches on the
original string, leftmost first and non-overlapping, resuming immediately
after each match; the replacement text never participates in matching.  The
scanners below implement exactly that: try a match at the current position,
on success emit the token and resume after the consumed characters, on
failure copy one character and move on.  Every match of either pattern has
length at least 1, so `List.drop (n - 1) cs = List.drop n (c :: cs)`. -/

def emailTok : List Char := ['[', 'E', 'M', 'A', 'I', 'L', ']']

def phoneTok : List Char := ['[', 'P', 'H', 'O', 'N', 'E', ']']

def scanE : List Char → List Char
  | [] => []
  | c :: cs =>
    match matchEmail (c :: cs) with
    | some n => emailTok ++ scanE (List.drop (n - 1) cs)
    | none => c :: scanE cs
termination_by s => s.length
decreasing_by
  · simp only [List.length_drop, List.length_cons]; omega
  · simp only [List.length_cons]; omega

/-- The phone scanner threads `pw`, whether the previous character of the
string being scanned is a word character (`\b` looks one character back).
After a match the previous character is the final digit of the matched
phone, a word character, so the scan resumes with `pw = true`. -/
def scanP (pw : Bool) : List Char → List Char
  | [] => []
  | c :: cs =>
    match matchPhone pw (c :: cs) with
    | some n => phoneTok ++ scanP true (List.drop (n - 1) cs)
    | none => c :: scanP (isWordChar c) cs
termination_by s => s.length
decreasing_by
  · simp only [List.length_drop, List.length_cons]; omega
  · simp only [List.length_cons]; omega

/-- The redaction stage of `analyzeText`: replace all e-mail matches by
`[EMAIL]`, then — on the resulting string — all phone matches by `[PHONE]`. -/
def redactL (s : List Char) : List Char := scanP false (scanE s)

def redact (s : String) : String := String.mk (redactL s.data)

/-! ## analyzeText, binning, per-row pipeline -/

/-- `analyzeText` from `processor.js`: empty text short-circuits to the
neutral score `0` with empty redacted text (the `!text` guard); otherwise
the text is redacted and the redacted text is scored by the external VADER
collaborator `vader`.  Result: `(compound score, redacted text)`. -/
def analyzeText (vader : String → ℚ) (text : String) : ℚ × String :=
  if text = "" then (0, "") else (vader (redact text), redact text)

/-- JavaScript `Math.round`: nearest integer, halves towards `+∞`,
i.e. `⌊x + 1/2⌋` for every finite `x`. -/
def jsRound (q : ℚ) : ℤ := ⌊q + 1 / 2⌋

/-- The binner from both ingestion handlers:
`Math.min(10, Math.max(0, Math.round((score + 1) * 5)))`. -/
def binIndex (score : ℚ) : ℤ := min 10 (max 0 (jsRound ((score + 1) * 5)))

/-- JavaScript `toLowerCase()` as used on header names and on the
`post_column` parameter (ASCII case folding, mapped characterwise). -/
def jsToLower (s : String) : String := String.mk (s.data.map Char.toLower)

/-- A CSV row as emitted by `csv-parser`: an association list from header
name to cell string, in column order. -/
abbrev CsvRow : Type := List (String × String)

/-- JavaScript object assignment `acc[k] = v`: overwrite an existing key in
place, otherwise append. -/
def objSet : List (String × String) → String → String → List (String × String)
  | [], k, v => [(k, v)]
  | (k', v') :: r, k, v => if k' = k then (k, v) :: r else (k', v') :: objSet r k v

/-- Header normalization from both `data` handlers:
`Object.keys(row).reduce((acc, key) => { acc[key.toLowerCase()] = row[key]; ... }, {})`;
keys are visited in object order, later case-variants overwrite earlier ones. -/
def normalizeRow (row : CsvRow) : CsvRow :=
  row.foldl (fun acc kv => objSet acc (jsToLower kv.1) kv.2) []

/-- Property lookup `obj[k]` on the association object. -/
def getCol (row : CsvRow) (k : String) : Option String :=
  (row.find? (fun kv => kv.1 = k)).map (fun kv => kv.2)

/-- `const text = normalizedRow[postCol] || ''`: a missing column
(`undefined`) and an empty-string cell are both falsy and fall back to `''`. -/
def rowText (row : CsvRow) (postCol : String) : String :=
  match getCol (normalizeRow row) postCol with
  | some v => if v = "" then "" else v
  | none => ""

/-- `bins[binIndex]++`: `binIndex` is always within `[0, 10]`, inside the
array of length 11. -/
def incrBin (bins : List ℕ) (i : ℕ) : List ℕ :=
  bins.set i (bins.getD i 0 + 1)

/-- One `data` event: normalize the row, extract the text column, analyze
(redact + score), bin, increment the counter. -/
def processRow (vader : String → ℚ) (postCol : String) (bins : List ℕ)
    (row : CsvRow) : List ℕ :=
  incrBin bins (binIndex (analyzeText vader (rowText row postCol)).1).toNat

/-- A whole ingestion run over the emitted rows, starting from
`new Array(11).fill(0)`. -/
def ingestBins (vader : String → ℚ) (postCol : String) (rows : List CsvRow) : List ℕ :=
  rows.foldl (processRow vader postCol) (List.replicate 11 0)

/-! ## HTTP-level control flow of the four endpoints

The store and the stream are the two external collaborators that can fail;
their answers are passed in.  `crash` models an unhandled `'error'` event on
a stream with no `'error'` listener, an unhandled promise rejection inside
an Express 4 handler, or a synchronous `TypeError` in an `async` handler:
in every one of these cases no response is ever sent to the caller. -/

structure AggregateRecord where
  id : Nat
  title : String
  bins : List Nat
deriving DecidableEq

/-- How the row stream terminates: a normal `end` event, or an `error`
event (malformed CSV, I/O failure) after the rows seen so far. -/
inductive StreamTerm where
  | ended
  | errored (msg : String)
deriving DecidableEq

structure StreamTrace where
  rows : List CsvRow
  term : StreamTerm

inductive Outcome where
  | ok (status : Nat) (id : Nat) (bins : List Nat)
  | fail (status : Nat) (msg : String)
  | crash
deriving DecidableEq

/-- `POST /api/ingest` in `src/index.js`.  The handler registers listeners
only for `data` and `end`; there is no `stream.on('error', ...)`, and the
surrounding `try`/`catch` can catch only synchronous throws during stream
setup, never an `'error'` event emitted later — an unlistened `'error'`
event raises an uncaught exception and the `end` handler (and hence the
insert and every response path) never runs.  On `end`, the insert runs
inside `try`/`catch`: success answers `res.json({success, id, bins})` and a
rejection answers `res.status(500).json({error: 'Database Persistence
Error: ' + dbErr.message})`. A missing file is answered upfront with
`res.status(400).json({error: 'No CSV file detected.'})`. -/
def indexIngest (vader : String → ℚ) (insert : String → List ℕ → Except String ℕ)
    (reqFile : Option String) (postColumn chartTitle : Option String)
    (tr : StreamTrace) : Outcome × Option AggregateRecord :=
  match reqFile with
  | none => (Outcome.fail 400 "No CSV file detected.", none)
  | some _ =>
    let postCol := jsToLower (match postColumn with
      | some p => if p = "" then "post" else p
      | none => "post")
    let title := match chartTitle with
      | some t => if t = "" then "New Analysis" else t
      | none => "New Analysis"
    let bins := ingestBins vader postCol tr.rows
    match tr.term with
    | StreamTerm.errored _ => (Outcome.crash, none)
    | StreamTerm.ended =>
      match insert title bins with
      | Except.ok newId => (Outcome.ok 200 newId bins, some ⟨newId, title, bins⟩)
      | Except.error e =>
        (Outcome.fail 500 ("Database Persistence Error: " ++ e), none)

/-- `POST /ingest` in `src/routes/sentiment.js`.  There is no `req.file`
guard: with no file uploaded, `fs.createReadStream(req.file.path)` throws a
`TypeError` inside the `async` handler, which Express 4 leaves as an
unhandled rejection — no response.  There is no `'error'` listener either,
and the `end` handler has no `try`/`catch`: a rejected insert is an
unhandled rejection — again no response. -/
def routesIngest (vader : String → ℚ) (insert : String → List ℕ → Except String ℕ)
    (reqFile : Option String) (postColumn chartTitle : Option String)
    (tr : StreamTrace) : Outcome × Option AggregateRecord :=
  match reqFile with
  | none => (Outcome.crash, none)
  | some _ =>
    let postCol := jsToLower (match postColumn with
      | some p => if p = "" then "post" else p
      | none => "post")
    let title := match chartTitle with
      | some t => if t = "" then "New Analysis" else t
      | none => "New Analysis"
    let bins := ingestBins vader postCol tr.rows
    match tr.term with
    | StreamTerm.errored _ => (Outcome.crash, none)
    | StreamTerm.ended =>
      match insert title bins with
      | Except.ok newId => (Outcome.ok 200 newId bins, some ⟨newId, title, bins⟩)
      | Except.error _ => (Outcome.crash, none)

inductive DisplayOutcome where
  | row (r : AggregateRecord)
  | fail (status : Nat) (msg : String)
  | crash
deriving DecidableEq

/-- `GET /api/display/:id` in `src/index.js`: the query runs inside
`try`/`catch`; an empty result set answers 404 `'Dataset not found.'`, a
found row is returned, and a query rejection answers
500 `'Query Error: ' + err.message`. -/
def indexDisplay (lookup : Except String (Option AggregateRecord)) : DisplayOutcome :=
  match lookup with
  | Except.error e => DisplayOutcome.fail 500 ("Query Error: " ++ e)
  | Except.ok none => DisplayOutcome.fail 404 "Dataset not found."
  | Except.ok (some r) => DisplayOutcome.row r

/-- `GET /display/:id` in `src/routes/sentiment.js`: no `try`/`catch`; a
missing row answers 404 `'Record not found'`, but a query rejection is an
unhandled rejection — no response at all. -/
def routesDisplay (lookup : Except String (Option AggregateRecord)) : DisplayOutcome :=
  match lookup with
  | Except.error _ => DisplayOutcome.crash
  | Except.ok none => DisplayOutcome.fail 404 "Record not found"
  | Except.ok (some r) => DisplayOutcome.row r

/-! ## Declarative match shapes

Relational counterparts of the two matchers, used to transport matches
between strings that agree on a prefix.  `EmailShape l` says the e-mail
pattern matches the list `l` exactly; `PhoneShape l` likewise for the
digits-and-separators core of the phone pattern. -/

/-- The e-mail pattern `[a-z0-9._%+-]+@[a-z0-9.-]+\.[a-z]{2,}` (with `i`)
matching a list exactly. -/
def EmailShape (l : List Char) : Prop :=
  ∃ a b t, l = a ++ '@' :: (b ++ '.' :: t) ∧
    a ≠ [] ∧ a.all isLocalChar = true ∧
    b ≠ [] ∧ b.all isDomainChar = true ∧
    2 ≤ t.length ∧ t.all isTldChar = true

/-- An optional separator `[-.]?`: nothing, a hyphen, or a dot. -/
def SepPart (l : List Char) : Prop := l = [] ∨ l = ['-'] ∨ l = ['.']

/-- The core `\d{3}[-.]?\d{3}[-.]?\d{4}` of the phone pattern matching a
list exactly. -/
def PhoneShape (l : List Char) : Prop :=
  ∃ d1 s1 d2 s2 d3, l = d1 ++ s1 ++ d2 ++ s2 ++ d3 ∧
    d1.length = 3 ∧ d1.all isDigit = true ∧ SepPart s1 ∧
    d2.length = 3 ∧ d2.all isDigit = true ∧ SepPart s2 ∧
    d3.length = 4 ∧ d3.all isDigit = true

/-- The trailing `\b` after a digit: the following text is empty or starts
with a non-word character. -/
def noWordHead (l : List Char) : Prop :=
  ∀ c, l.head? = some c → isWordChar c = false

/-- The whole phone pattern `\b\d{3}[-.]?\d{3}[-.]?\d{4}\b` matching a
length-`n` prefix of `s` in context `pw` (whether the preceding character
is a word character). -/
def PhoneAt (pw : Bool) (s : List Char) (n : Nat) : Prop :=
  pw = false ∧ n ≤ s.length ∧ PhoneShape (s.take n) ∧ noWordHead (s.drop n)

/-- Word-character status of the character immediately preceding the text
that follows `l`, given that the character preceding `l` has status `pw`. -/
def lastW (pw : Bool) (l : List Char) : Bool :=
  match l.getLast? with
  | some c => isWordChar c
  | none => pw

/-- No e-mail match starts anywhere in the list. -/
def emailFree : List Char → Prop
  | [] => True
  | c :: cs => matchEmail (c :: cs) = none ∧ emailFree cs

/-- No phone match starts anywhere in the list, scanned with initial
previous-character status `pw`. -/
def phoneFree : Bool → List Char → Prop
  | _, [] => True
  | pw, c :: cs => matchPhone pw (c :: cs) = none ∧ phoneFree (isWordChar c) cs

/-! # Theorems

Generic helper lemmas about runs, list surgery and the `altO` choice
operator come first; then soundness and completeness of the two matchers
with respect to their declarative shapes; then the freedom invariants of
the two scanners; finally one theorem per claim. -/

theorem runCount_le (p : Char → Bool) : ∀ s : List Char, runCount p s ≤ s.length := by
  intro s
  induction s with
  | nil => simp [runCount]
  | cons c cs ih => simp only [runCount, List.length_cons]; split <;> omega

theorem take_all_of_le (p : Char → Bool) :
    ∀ (s : List Char) (j : Nat), j ≤ runCount p s → (s.take j).all p = true := by
  intro s
  induction s with
  | nil => intro j _; simp
  | cons c cs ih =>
    intro j h
    cases j with
    | zero => rfl
    | succ j' =>
      have hc : p c = true := by
        by_cases hp : p c
        · exact hp
        · rw [runCount, if_neg hp] at h; omega
      rw [runCount, if_pos hc] at h
      rw [List.take_succ_cons, List.all_cons, hc, Bool.true_and]
      exact ih j' (by omega)

theorem runCount_stop (p : Char → Bool) :
    ∀ (a : List Char) (c : Char) (r : List Char),
      a.all p = true → p c = false → runCount p (a ++ c :: r) = a.length := by
  intro a
  induction a with
  | nil => intro c r _ hc; simp [runCount, hc]
  | cons x xs ih =>
    intro c r ha hc
    rw [List.all_cons, Bool.and_eq_true] at ha
    simp [runCount, ha.1, ih c r ha.2 hc]

theorem runCount_ge (p : Char → Bool) :
    ∀ (a r : List Char), a.all p = true → a.length ≤ runCount p (a ++ r) := by
  intro a
  induction a with
  | nil => intro r _; simp
  | cons x xs ih =>
    intro r ha
    rw [List.all_cons, Bool.and_eq_true] at ha
    simp only [List.cons_append, runCount, ha.1, if_true, List.length_cons, List.append_eq]
    have := ih r ha.2
    omega

theorem get_split :
    ∀ (s : List Char) (i : Nat) (c : Char),
      s.get? i = some c → s = s.take i ++ c :: s.drop (i + 1) := by
  intro s
  induction s with
  | nil => intro i c h; simp [List.get?] at h
  | cons x xs ih =>
    intro i c h
    cases i with
    | zero =>
      simp only [List.get?] at h
      injection h with h
      simp [h]
    | succ i' =>
      simp only [List.get?] at h
      rw [List.take_succ_cons, List.drop_succ_cons, List.cons_append]
      exact congrArg (x :: ·) (ih i' c h)

theorem take_add_app :
    ∀ (a b : List Char) (m : Nat), (a ++ b).take (a.length + m) = a ++ b.take m := by
  intro a
  induction a with
  | nil => intro b m; simp
  | cons x xs ih =>
    intro b m
    have h : (x :: xs).length + m = (xs.length + m) + 1 := by
      simp [List.length_cons]; omega
    rw [List.cons_append, h, List.take_succ_cons, ih, List.cons_append]

theorem drop_add_app :
    ∀ (a b : List Char) (m : Nat), (a ++ b).drop (a.length + m) = b.drop m := by
  intro a
  induction a with
  | nil => intro b m; simp
  | cons x xs ih =>
    intro b m
    have h : (x :: xs).length + m = (xs.length + m) + 1 := by
      simp [List.length_cons]; omega
    rw [List.cons_append, h, List.drop_succ_cons, ih]

theorem get_app_right :
    ∀ (a b : List Char) (n : Nat), (a ++ b).get? (a.length + n) = b.get? n := by
  intro a
  induction a with
  | nil => intro b n; simp
  | cons x xs ih =>
    intro b n
    have h : (x :: xs).length + n = (xs.length + n) + 1 := by
      simp [List.length_cons]; omega
    rw [List.cons_append, h]
    simpa using ih b n

theorem altO_some :
    ∀ (a b : Option Nat) (n : Nat),
      altO a b = some n → a = some n ∨ (a = none ∧ b = some n) := by
  intro a b n h
  cases a with
  | some m => left; exact h
  | none => right; exact ⟨rfl, h⟩

theorem altO_isSome_left :
    ∀ (a b : Option Nat), a.isSome = true → (altO a b).isSome = true := by
  intro a b h
  cases a with
  | some m => rfl
  | none => simp [Option.isSome] at h

theorem altO_isSome_right :
    ∀ (a b : Option Nat), b.isSome = true → (altO a b).isSome = true := by
  intro a b h
  cases a with
  | some m => rfl
  | none => exact h

theorem tld_domain : ∀ c, isTldChar c = true → isDomainChar c = true := by
  intro c h
  rw [isTldChar] at h
  simp [isDomainChar, h]

theorem domain_local : ∀ c, isDomainChar c = true → isLocalChar c = true := by
  intro c h
  simp only [isDomainChar, Bool.or_eq_true] at h
  simp only [isLocalChar, Bool.or_eq_true]
  tauto

theorem digit_word : ∀ c, isDigit c = true → isWordChar c = true := by
  intro c h
  simp [isWordChar, h]

theorem sep_not_word : ∀ c, isSep c = true → isWordChar c = false := by
  intro c h
  rw [isSep] at h
  simp only [Bool.or_eq_true, decide_eq_true_eq] at h
  rcases h with h | h <;> (subst h; decide)

theorem digit_not_sep : ∀ c, isDigit c = true → isSep c = false := by
  intro c h
  cases hq : isSep c with
  | false => rfl
  | true =>
    rw [isSep] at hq
    simp only [Bool.or_eq_true, decide_eq_true_eq] at hq
    rcases hq with h1 | h1 <;> (subst h1; exact absurd h (by decide))

theorem all_mono (p q : Char → Bool) (h : ∀ c, p c = true → q c = true) :
    ∀ l : List Char, l.all p = true → l.all q = true := by
  intro l
  induction l with
  | nil => intro _; rfl
  | cons x xs ih =>
    intro hl
    rw [List.all_cons, Bool.and_eq_true] at hl ⊢
    exact ⟨h x hl.1, ih hl.2⟩

theorem get_lt : ∀ (s : List Char) (i : Nat) (c : Char), s.get? i = some c → i < s.length := by
  intro s
  induction s with
  | nil => intro i c h; simp [List.get?] at h
  | cons x xs ih =>
    intro i c h
    cases i with
    | zero => simp [List.length_cons]
    | succ i' =>
      simp only [List.get?] at h
      have := ih i' c h
      simp [List.length_cons]
      omega

theorem domTry_sound : ∀ (s2 : List Char) (j m : Nat), domTry s2 j = some m →
    s2.get? j = some '.' ∧ 2 ≤ tldRun s2 j ∧ m = j + 1 + tldRun s2 j := by
  intro s2 j m h
  rw [domTry] at h
  split at h
  · next hc =>
    rw [Bool.and_eq_true, decide_eq_true_eq, decide_eq_true_eq] at hc
    injection h with h
    exact ⟨hc.1, hc.2, h.symm⟩
  · exact absurd h (by simp)

theorem domSearch_sound : ∀ (s2 : List Char) (J m : Nat), domSearch s2 J = some m →
    ∃ j, 1 ≤ j ∧ j ≤ J ∧ domTry s2 j = some m := by
  intro s2 J
  induction J with
  | zero => intro m h; simp [domSearch] at h
  | succ J' ih =>
    intro m h
    rw [domSearch] at h
    rcases altO_some _ _ _ h with h1 | ⟨_, h2⟩
    · exact ⟨J' + 1, by omega, le_refl _, h1⟩
    · obtain ⟨j, hj1, hj2, hj3⟩ := ih m h2
      exact ⟨j, hj1, by omega, hj3⟩

theorem domSearch_complete :
    ∀ (s2 : List Char) (J j : Nat), 1 ≤ j → j ≤ J → (domTry s2 j).isSome = true →
      (domSearch s2 J).isSome = true := by
  intro s2 J
  induction J with
  | zero => intro j h1 h2 _; omega
  | succ J' ih =>
    intro j h1 h2 h3
    rw [domSearch]
    by_cases hj : j = J' + 1
    · subst hj; exact altO_isSome_left _ _ h3
    · cases hd : domTry s2 (J' + 1) with
      | some m => simp [hd, altO]
      | none => simp only [hd, altO]; exact ih j h1 (by omega) h3

theorem take_decomp_at (x : List Char) (i m : Nat) (c : Char) (hc : x.get? i = some c) :
    x.take (i + 1 + m) = x.take i ++ c :: (x.drop (i + 1)).take m := by
  have hlen : (x.take i).length = i := by
    rw [List.length_take]
    have := get_lt x i c hc
    omega
  have hx : x = x.take i ++ c :: x.drop (i + 1) := get_split x i c hc
  conv_lhs => rw [hx]
  have hcount : i + 1 + m = (x.take i).length + (m + 1) := by omega
  rw [hcount, take_add_app, List.take_succ_cons]

theorem matchEmail_eq (s : List Char) :
    matchEmail s =
      (if runCount isLocalChar s = 0 then none
       else if s.get? (runCount isLocalChar s) = some '@' then
         match domSearch (s.drop (runCount isLocalChar s + 1))
             (runCount isDomainChar (s.drop (runCount isLocalChar s + 1)) - 1) with
         | some m => some (runCount isLocalChar s + 1 + m)
         | none => none
       else none) := rfl

theorem matchEmail_sound : ∀ (s : List Char) (n : Nat), matchEmail s = some n →
    EmailShape (s.take n) ∧ 1 ≤ n ∧ n ≤ s.length := by
  intro s n h
  rw [matchEmail_eq] at h
  by_cases h0 : runCount isLocalChar s = 0
  · rw [if_pos h0] at h; simp at h
  · rw [if_neg h0] at h
    by_cases hat : s.get? (runCount isLocalChar s) = some '@'
    · rw [if_pos hat] at h
      cases hd : domSearch (s.drop (runCount isLocalChar s + 1))
          (runCount isDomainChar (s.drop (runCount isLocalChar s + 1)) - 1) with
      | none => rw [hd] at h; simp at h
      | some m =>
        rw [hd] at h
        injection h with h
        obtain ⟨j, hj1, hjk, hjt⟩ := domSearch_sound _ _ _ hd
        obtain ⟨hdot, ht2, hm⟩ := domTry_sound _ _ _ hjt
        have hllen : runCount isLocalChar s < s.length := get_lt s _ '@' hat
        have hjlen : j < (s.drop (runCount isLocalChar s + 1)).length :=
          get_lt _ _ '.' hdot
        have htlen : tldRun (s.drop (runCount isLocalChar s + 1)) j ≤
            ((s.drop (runCount isLocalChar s + 1)).drop (j + 1)).length := by
          rw [tldRun]; exact runCount_le _ _
        refine ⟨?_, by omega, ?_⟩
        · have halen : (s.take (runCount isLocalChar s)).length = runCount isLocalChar s := by
            rw [List.length_take]; omega
          have hblen : ((s.drop (runCount isLocalChar s + 1)).take j).length = j := by
            rw [List.length_take]; omega
          refine ⟨s.take (runCount isLocalChar s),
                  (s.drop (runCount isLocalChar s + 1)).take j,
                  ((s.drop (runCount isLocalChar s + 1)).drop (j + 1)).take
                    (tldRun (s.drop (runCount isLocalChar s + 1)) j),
                  ?_, ?_, ?_, ?_, ?_, ?_, ?_⟩
          · have hn : n = runCount isLocalChar s + 1 +
                (j + 1 + tldRun (s.drop (runCount isLocalChar s + 1)) j) := by omega
            rw [hn, take_decomp_at s _ _ '@' hat, take_decomp_at _ _ _ '.' hdot]
          · intro hnil
            rw [hnil] at halen
            simp at halen
            omega
          · exact take_all_of_le _ s _ (le_refl _)
          · intro hnil
            rw [hnil] at hblen
            simp at hblen
            omega
          · refine take_all_of_le _ _ j ?_
            omega
          · rw [List.length_take]
            omega
          · rw [tldRun]
            exact take_all_of_le _ _ _ (le_refl _)
        · have hd1 : (s.drop (runCount isLocalChar s + 1)).length =
              s.length - (runCount isLocalChar s + 1) := by
            rw [List.length_drop]
          have hd2 : ((s.drop (runCount isLocalChar s + 1)).drop (j + 1)).length =
              (s.drop (runCount isLocalChar s + 1)).length - (j + 1) := by
            rw [List.length_drop]
          omega
    · rw [if_neg hat] at h; simp at h

theorem matchEmail_complete : ∀ (s : List Char) (n : Nat),
    EmailShape (s.take n) → n ≤ s.length → (matchEmail s).isSome = true := by
  intro s n hsh hn
  obtain ⟨a, b, t, hdec, hane, hal, hbne, hbd, ht2, htl⟩ := hsh
  have hs : s = a ++ '@' :: (b ++ '.' :: (t ++ s.drop n)) := by
    conv_lhs => rw [← List.take_append_drop n s]
    rw [hdec]
    simp [List.append_assoc]
  have hl : runCount isLocalChar s = a.length := by
    conv_lhs => rw [hs]
    exact runCount_stop _ a '@' _ hal (by decide)
  have hlne : ¬ runCount isLocalChar s = 0 := by
    rw [hl]
    intro hz
    exact hane (List.eq_nil_of_length_eq_zero hz)
  have hat : s.get? (runCount isLocalChar s) = some '@' := by
    rw [hl]
    conv_lhs => rw [hs]
    have h0 := get_app_right a ('@' :: (b ++ '.' :: (t ++ s.drop n))) 0
    simpa using h0
  have hdrop : s.drop (runCount isLocalChar s + 1) = b ++ '.' :: (t ++ s.drop n) := by
    rw [hl]
    conv_lhs => rw [hs]
    have h0 := drop_add_app a ('@' :: (b ++ '.' :: (t ++ s.drop n))) 1
    exact h0
  have hBall : (b ++ '.' :: t).all isDomainChar = true := by
    rw [List.all_append, Bool.and_eq_true]
    refine ⟨hbd, ?_⟩
    rw [List.all_cons, Bool.and_eq_true]
    exact ⟨by decide, all_mono _ _ tld_domain t htl⟩
  have hk : b.length + 1 + t.length ≤
      runCount isDomainChar (s.drop (runCount isLocalChar s + 1)) := by
    rw [hdrop]
    have heq : b ++ '.' :: (t ++ s.drop n) = (b ++ '.' :: t) ++ s.drop n := by
      simp [List.append_assoc]
    rw [heq]
    have h0 := runCount_ge isDomainChar (b ++ '.' :: t) (s.drop n) hBall
    simp only [List.length_append, List.length_cons] at h0
    omega
  have hdotb : (s.drop (runCount isLocalChar s + 1)).get? b.length = some '.' := by
    rw [hdrop]
    have h0 := get_app_right b ('.' :: (t ++ s.drop n)) 0
    rw [Nat.add_zero] at h0
    rw [h0]
    rfl
  have htrun : t.length ≤ tldRun (s.drop (runCount isLocalChar s + 1)) b.length := by
    rw [tldRun, hdrop]
    have hdr : (b ++ '.' :: (t ++ s.drop n)).drop (b.length + 1) = t ++ s.drop n := by
      have h0 := drop_add_app b ('.' :: (t ++ s.drop n)) 1
      exact h0
    rw [hdr]
    exact runCount_ge isTldChar t (s.drop n) htl
  have h2' : 2 ≤ tldRun (s.drop (runCount isLocalChar s + 1)) b.length := le_trans ht2 htrun
  have hdt : (domTry (s.drop (runCount isLocalChar s + 1)) b.length).isSome = true := by
    have hcond : (decide ((s.drop (runCount isLocalChar s + 1)).get? b.length = some '.') &&
        decide (2 ≤ tldRun (s.drop (runCount isLocalChar s + 1)) b.length)) = true := by
      rw [Bool.and_eq_true, decide_eq_true_eq, decide_eq_true_eq]
      exact ⟨hdotb, h2'⟩
    rw [domTry, if_pos hcond]
    rfl
  have hds := domSearch_complete (s.drop (runCount isLocalChar s + 1))
      (runCount isDomainChar (s.drop (runCount isLocalChar s + 1)) - 1) b.length
      (by have := List.length_pos.mpr hbne; omega)
      (by omega) hdt
  rw [matchEmail_eq, if_neg hlne, if_pos hat]
  cases hd : domSearch (s.drop (runCount isLocalChar s + 1))
      (runCount isDomainChar (s.drop (runCount isLocalChar s + 1)) - 1) with
  | none => rw [hd] at hds; simp at hds
  | some m => rfl

theorem takeLenApp : ∀ (a b : List Char), (a ++ b).take a.length = a := by
  intro a b
  have h := take_add_app a b 0
  rw [Nat.add_zero, List.take_zero, List.append_nil] at h
  exact h

theorem dropLenApp : ∀ (a b : List Char), (a ++ b).drop a.length = b := by
  intro a b
  have h := drop_add_app a b 0
  rw [Nat.add_zero, List.drop_zero] at h
  exact h

theorem boundary_noWord : ∀ l : List Char, boundaryOk l = true → noWordHead l := by
  intro l hb c hc
  cases l with
  | nil => cases hc
  | cons x xs =>
    rw [boundaryOk] at hb
    injection hc with hc
    subst hc
    simp only [Bool.not_eq_true'] at hb
    exact hb

theorem sep_cases : ∀ c, isSep c = true → c = '-' ∨ c = '.' := by
  intro c h
  rw [isSep] at h
  simp only [Bool.or_eq_true, decide_eq_true_eq] at h
  exact h

theorem digitsN_sound : ∀ (k : Nat) (s r : List Char), digitsN k s = some r →
    r = s.drop k ∧ (s.take k).length = k ∧ (s.take k).all isDigit = true := by
  intro k
  induction k with
  | zero =>
    intro s r h
    rw [digitsN] at h
    injection h with h
    subst h
    exact ⟨rfl, rfl, rfl⟩
  | succ k' ih =>
    intro s r h
    cases s with
    | nil => rw [digitsN] at h; cases h
    | cons c cs =>
      rw [digitsN] at h
      by_cases hc : isDigit c = true
      · rw [if_pos hc] at h
        obtain ⟨h1, h2, h3⟩ := ih cs r h
        refine ⟨?_, ?_, ?_⟩
        · rw [List.drop_succ_cons]; exact h1
        · rw [List.take_succ_cons, List.length_cons, h2]
        · rw [List.take_succ_cons, List.all_cons, hc, Bool.true_and]; exact h3
      · rw [if_neg hc] at h; cases h

theorem digitsN_complete : ∀ (d r : List Char), d.all isDigit = true →
    digitsN d.length (d ++ r) = some r := by
  intro d
  induction d with
  | nil => intro r _; rfl
  | cons x xs ih =>
    intro r hd
    rw [List.all_cons, Bool.and_eq_true] at hd
    rw [List.length_cons, List.cons_append]
    simp only [digitsN]
    rw [if_pos hd.1]
    exact ih r hd.2

theorem phoneEnd_sound : ∀ (s : List Char) (acc m : Nat), phoneEnd s acc = some m →
    m = acc + 4 ∧ (s.take 4).length = 4 ∧ (s.take 4).all isDigit = true ∧
    boundaryOk (s.drop 4) = true := by
  intro s acc m h
  rw [phoneEnd] at h
  cases hd : digitsN 4 s with
  | none => rw [hd] at h; cases h
  | some r =>
    rw [hd] at h
    obtain ⟨h1, h2, h3⟩ := digitsN_sound 4 s r hd
    subst h1
    have h' : (if boundaryOk (s.drop 4) = true then some (acc + 4) else none) = some m := h
    by_cases hb : boundaryOk (s.drop 4) = true
    · rw [if_pos hb] at h'
      injection h' with h'
      exact ⟨h'.symm, h2, h3, hb⟩
    · rw [if_neg hb] at h'; cases h'

theorem phoneEnd_complete : ∀ (d3 r : List Char) (acc : Nat), d3.length = 4 →
    d3.all isDigit = true → boundaryOk r = true →
    phoneEnd (d3 ++ r) acc = some (acc + 4) := by
  intro d3 r acc hlen hd hb
  rw [phoneEnd]
  have h0 : digitsN 4 (d3 ++ r) = some r := by
    conv_lhs => rw [← hlen]
    exact digitsN_complete d3 r hd
  rw [h0]
  show (if boundaryOk r = true then some (acc + 4) else none) = some (acc + 4)
  rw [if_pos hb]

theorem phoneSepEnd_sound : ∀ (s : List Char) (acc m : Nat), phoneSepEnd s acc = some m →
    (∃ c r, s = c :: r ∧ isSep c = true ∧ phoneEnd r (acc + 1) = some m) ∨
    phoneEnd s acc = some m := by
  intro s acc m h
  cases s with
  | nil => right; rw [phoneSepEnd] at h; exact h
  | cons c r =>
    rw [phoneSepEnd] at h
    by_cases hc : isSep c = true
    · rw [if_pos hc] at h
      rcases altO_some _ _ _ h with h1 | ⟨_, h2⟩
      · left; exact ⟨c, r, rfl, hc, h1⟩
      · right; exact h2
    · rw [if_neg hc] at h; right; exact h

theorem phoneSecond_sound : ∀ (s : List Char) (acc m : Nat), phoneSecond s acc = some m →
    (s.take 3).length = 3 ∧ (s.take 3).all isDigit = true ∧
    phoneSepEnd (s.drop 3) (acc + 3) = some m := by
  intro s acc m h
  rw [phoneSecond] at h
  cases hd : digitsN 3 s with
  | none => rw [hd] at h; cases h
  | some r =>
    rw [hd] at h
    obtain ⟨h1, h2, h3⟩ := digitsN_sound 3 s r hd
    subst h1
    exact ⟨h2, h3, h⟩

theorem phoneSepSecond_sound : ∀ (s : List Char) (acc m : Nat), phoneSepSecond s acc = some m →
    (∃ c r, s = c :: r ∧ isSep c = true ∧ phoneSecond r (acc + 1) = some m) ∨
    phoneSecond s acc = some m := by
  intro s acc m h
  cases s with
  | nil =>
    right
    rw [phoneSepSecond] at h
    rw [phoneSecond] at h ⊢
    exact h
  | cons c r =>
    rw [phoneSepSecond] at h
    by_cases hc : isSep c = true
    · rw [if_pos hc] at h
      rcases altO_some _ _ _ h with h1 | ⟨_, h2⟩
      · left; exact ⟨c, r, rfl, hc, h1⟩
      · right; exact h2
    · rw [if_neg hc] at h; right; exact h

theorem phoneSepEnd_complete :
    ∀ (s2 d3 r : List Char) (acc : Nat), SepPart s2 → d3.length = 4 →
      d3.all isDigit = true → boundaryOk r = true →
      (phoneSepEnd (s2 ++ (d3 ++ r)) acc).isSome = true := by
  intro s2 d3 r acc hs2 hlen hd hb
  have hpe : ∀ a : Nat, phoneEnd (d3 ++ r) a = some (a + 4) :=
    fun a => phoneEnd_complete d3 r a hlen hd hb
  rcases hs2 with h | h | h
  · subst h
    rw [List.nil_append]
    cases hd3 : d3 with
    | nil => rw [hd3] at hlen; simp at hlen
    | cons x xs =>
      have hx : isDigit x = true := by
        rw [hd3, List.all_cons, Bool.and_eq_true] at hd
        exact hd.1
      have hxs : ¬ isSep x = true := by
        rw [digit_not_sep x hx]
        exact Bool.false_ne_true
      rw [List.cons_append, phoneSepEnd, if_neg hxs, ← List.cons_append, ← hd3, hpe acc]
      rfl
  · subst h
    rw [List.singleton_append, phoneSepEnd, if_pos (show isSep '-' = true by decide)]
    exact altO_isSome_left _ _ (by rw [hpe (acc + 1)]; rfl)
  · subst h
    rw [List.singleton_append, phoneSepEnd, if_pos (show isSep '.' = true by decide)]
    exact altO_isSome_left _ _ (by rw [hpe (acc + 1)]; rfl)

theorem phoneSecond_complete :
    ∀ (d2 s2 d3 r : List Char) (acc : Nat), d2.length = 3 → d2.all isDigit = true →
      SepPart s2 → d3.length = 4 → d3.all isDigit = true → boundaryOk r = true →
      (phoneSecond (d2 ++ (s2 ++ (d3 ++ r))) acc).isSome = true := by
  intro d2 s2 d3 r acc h2l h2d hs2 hlen hd hb
  rw [phoneSecond]
  have h0 : digitsN 3 (d2 ++ (s2 ++ (d3 ++ r))) = some (s2 ++ (d3 ++ r)) := by
    conv_lhs => rw [← h2l]
    exact digitsN_complete d2 _ h2d
  rw [h0]
  exact phoneSepEnd_complete s2 d3 r (acc + 3) hs2 hlen hd hb

theorem phoneSepSecond_complete :
    ∀ (s1 d2 s2 d3 r : List Char) (acc : Nat), SepPart s1 →
      d2.length = 3 → d2.all isDigit = true →
      SepPart s2 → d3.length = 4 → d3.all isDigit = true → boundaryOk r = true →
      (phoneSepSecond (s1 ++ (d2 ++ (s2 ++ (d3 ++ r)))) acc).isSome = true := by
  intro s1 d2 s2 d3 r acc hs1 h2l h2d hs2 hlen hd hb
  have hps : ∀ a : Nat, (phoneSecond (d2 ++ (s2 ++ (d3 ++ r))) a).isSome = true :=
    fun a => phoneSecond_complete d2 s2 d3 r a h2l h2d hs2 hlen hd hb
  rcases hs1 with h | h | h
  · subst h
    rw [List.nil_append]
    cases hd2 : d2 with
    | nil => rw [hd2] at h2l; simp at h2l
    | cons x xs =>
      have hx : isDigit x = true := by
        rw [hd2, List.all_cons, Bool.and_eq_true] at h2d
        exact h2d.1
      have hxs : ¬ isSep x = true := by
        rw [digit_not_sep x hx]
        exact Bool.false_ne_true
      rw [List.cons_append, phoneSepSecond, if_neg hxs, ← List.cons_append, ← hd2]
      exact hps acc
  · subst h
    rw [List.singleton_append, phoneSepSecond, if_pos (show isSep '-' = true by decide)]
    exact altO_isSome_left _ _ (hps (acc + 1))
  · subst h
    rw [List.singleton_append, phoneSepSecond, if_pos (show isSep '.' = true by decide)]
    exact altO_isSome_left _ _ (hps (acc + 1))

theorem sep_single : ∀ c, isSep c = true → SepPart [c] := by
  intro c h
  rcases sep_cases c h with h1 | h1 <;> subst h1
  · right; left; rfl
  · right; right; rfl

theorem matchPhone_eq (pw : Bool) (s : List Char) :
    matchPhone pw s =
      (if pw = true then none
       else match digitsN 3 s with
         | some r => phoneSepSecond r 3
         | none => none) := rfl

theorem phone_assemble :
    ∀ (s d1 s1 d2 s2 d3 tail : List Char) (n : Nat),
      s = d1 ++ (s1 ++ (d2 ++ (s2 ++ (d3 ++ tail)))) →
      n = d1.length + s1.length + d2.length + s2.length + d3.length →
      d1.length = 3 → d1.all isDigit = true → SepPart s1 →
      d2.length = 3 → d2.all isDigit = true → SepPart s2 →
      d3.length = 4 → d3.all isDigit = true → boundaryOk tail = true →
      PhoneShape (s.take n) ∧ noWordHead (s.drop n) ∧ n ≤ s.length ∧ 10 ≤ n := by
  intro s d1 s1 d2 s2 d3 tail n hs hn h1l h1d hs1 h2l h2d hs2 h3l h3d hb
  have hP : s = (d1 ++ s1 ++ d2 ++ s2 ++ d3) ++ tail := by
    rw [hs]; simp [List.append_assoc]
  have hPlen : (d1 ++ s1 ++ d2 ++ s2 ++ d3).length = n := by
    simp only [List.length_append]; omega
  have ht : s.take n = d1 ++ s1 ++ d2 ++ s2 ++ d3 := by
    conv_lhs => rw [hP, ← hPlen]
    exact takeLenApp _ _
  have hdr : s.drop n = tail := by
    conv_lhs => rw [hP, ← hPlen]
    exact dropLenApp _ _
  refine ⟨⟨d1, s1, d2, s2, d3, ht, h1l, h1d, hs1, h2l, h2d, hs2, h3l, h3d⟩, ?_, ?_, by omega⟩
  · rw [hdr]; exact boundary_noWord tail hb
  · have hlen : s.length = n + tail.length := by
      rw [hP, List.length_append, hPlen]
    omega

theorem matchPhone_sound : ∀ (pw : Bool) (s : List Char) (n : Nat), matchPhone pw s = some n →
    pw = false ∧ PhoneShape (s.take n) ∧ noWordHead (s.drop n) ∧ n ≤ s.length ∧ 10 ≤ n := by
  intro pw s n h
  rw [matchPhone_eq] at h
  by_cases hpw : pw = true
  · rw [if_pos hpw] at h; cases h
  · rw [if_neg hpw] at h
    have hpwf : pw = false := by
      cases pw
      · rfl
      · exact absurd rfl hpw
    refine ⟨hpwf, ?_⟩
    cases hd1 : digitsN 3 s with
    | none => rw [hd1] at h; cases h
    | some r1 =>
      rw [hd1] at h
      obtain ⟨hr1, h1len, h1dig⟩ := digitsN_sound 3 s r1 hd1
      have h' : phoneSepSecond r1 3 = some n := h
      rcases phoneSepSecond_sound r1 3 n h' with ⟨c1, r2, hr1c, hc1, hps⟩ | hps
      · -- first separator present
        obtain ⟨h2len, h2dig, hpse⟩ := phoneSecond_sound r2 4 n hps
        rcases phoneSepEnd_sound (r2.drop 3) 7 n hpse with ⟨c2, r4, hr2c, hc2, hpen⟩ | hpen
        · -- second separator present: n = 12
          obtain ⟨hn12, h3len, h3dig, hbnd⟩ := phoneEnd_sound r4 8 n hpen
          have hchain : s = s.take 3 ++ ([c1] ++ (r2.take 3 ++
              ([c2] ++ (r4.take 4 ++ r4.drop 4)))) := by
            conv_lhs => rw [← List.take_append_drop 3 s, ← hr1, hr1c,
              ← List.take_append_drop 3 r2, hr2c, ← List.take_append_drop 4 r4]
            simp [List.singleton_append]
          have hnval : n = (s.take 3).length + ([c1] : List Char).length +
              (r2.take 3).length + ([c2] : List Char).length + (r4.take 4).length := by
            simp only [List.length_singleton, h1len, h2len, h3len]
            omega
          exact phone_assemble s (s.take 3) [c1] (r2.take 3) [c2] (r4.take 4) (r4.drop 4)
            n hchain hnval h1len h1dig (sep_single c1 hc1) h2len h2dig
            (sep_single c2 hc2) h3len h3dig hbnd
        · -- second separator absent: n = 11
          obtain ⟨hn11, h3len, h3dig, hbnd⟩ := phoneEnd_sound (r2.drop 3) 7 n hpen
          have hchain : s = s.take 3 ++ ([c1] ++ (r2.take 3 ++
              (([] : List Char) ++ ((r2.drop 3).take 4 ++ (r2.drop 3).drop 4)))) := by
            conv_lhs => rw [← List.take_append_drop 3 s, ← hr1, hr1c,
              ← List.take_append_drop 3 r2]
            conv_rhs => rw [List.take_append_drop]
            simp [List.singleton_append]
          have hnval : n = (s.take 3).length + ([c1] : List Char).length +
              (r2.take 3).length + ([] : List Char).length + ((r2.drop 3).take 4).length := by
            simp only [List.length_singleton, List.length_nil, h1len, h2len, h3len]
            omega
          exact phone_assemble s (s.take 3) [c1] (r2.take 3) [] ((r2.drop 3).take 4)
            ((r2.drop 3).drop 4) n hchain hnval h1len h1dig (sep_single c1 hc1)
            h2len h2dig (Or.inl rfl) h3len h3dig hbnd
      · -- first separator absent
        obtain ⟨h2len, h2dig, hpse⟩ := phoneSecond_sound r1 3 n hps
        rcases phoneSepEnd_sound (r1.drop 3) 6 n hpse with ⟨c2, r4, hr1d, hc2, hpen⟩ | hpen
        · -- second separator present: n = 11
          obtain ⟨hn11, h3len, h3dig, hbnd⟩ := phoneEnd_sound r4 7 n hpen
          have hchain : s = s.take 3 ++ (([] : List Char) ++ (r1.take 3 ++
              ([c2] ++ (r4.take 4 ++ r4.drop 4)))) := by
            conv_lhs => rw [← List.take_append_drop 3 s, ← hr1,
              ← List.take_append_drop 3 r1, hr1d, ← List.take_append_drop 4 r4]
            simp [List.singleton_append]
          have hnval : n = (s.take 3).length + ([] : List Char).length +
              (r1.take 3).length + ([c2] : List Char).length + (r4.take 4).length := by
            simp only [List.length_singleton, List.length_nil, h1len, h2len, h3len]
            omega
          exact phone_assemble s (s.take 3) [] (r1.take 3) [c2] (r4.take 4) (r4.drop 4)
            n hchain hnval h1len h1dig (Or.inl rfl) h2len h2dig
            (sep_single c2 hc2) h3len h3dig hbnd
        · -- both separators absent: n = 10
          obtain ⟨hn10, h3len, h3dig, hbnd⟩ := phoneEnd_sound (r1.drop 3) 6 n hpen
          have hchain : s = s.take 3 ++ (([] : List Char) ++ (r1.take 3 ++
              (([] : List Char) ++ ((r1.drop 3).take 4 ++ (r1.drop 3).drop 4)))) := by
            conv_lhs => rw [← List.take_append_drop 3 s, ← hr1,
              ← List.take_append_drop 3 r1]
            conv_rhs => rw [List.take_append_drop]
            simp
          have hnval : n = (s.take 3).length + ([] : List Char).length +
              (r1.take 3).length + ([] : List Char).length + ((r1.drop 3).take 4).length := by
            simp only [List.length_nil, h1len, h2len, h3len]
            omega
          exact phone_assemble s (s.take 3) [] (r1.take 3) [] ((r1.drop 3).take 4)
            ((r1.drop 3).drop 4) n hchain hnval h1len h1dig (Or.inl rfl)
            h2len h2dig (Or.inl rfl) h3len h3dig hbnd

theorem matchPhone_complete : ∀ (pw : Bool) (s : List Char) (n : Nat),
    PhoneAt pw s n → (matchPhone pw s).isSome = true := by
  intro pw s n hp
  obtain ⟨hpw, hn, hshape, hnw⟩ := hp
  obtain ⟨d1, s1, d2, s2, d3, hdec, h1l, h1d, hs1, h2l, h2d, hs2, h3l, h3d⟩ := hshape
  have hs : s = d1 ++ (s1 ++ (d2 ++ (s2 ++ (d3 ++ s.drop n)))) := by
    conv_lhs => rw [← List.take_append_drop n s]
    rw [hdec]
    simp [List.append_assoc]
  have hb : boundaryOk (s.drop n) = true := by
    cases hsd : s.drop n with
    | nil => rfl
    | cons c cs =>
      rw [boundaryOk]
      have hc := hnw c (by rw [hsd]; rfl)
      rw [hc]
      rfl
  subst hpw
  rw [matchPhone_eq, if_neg (by exact Bool.false_ne_true)]
  have hd1 : digitsN 3 s = some (s1 ++ (d2 ++ (s2 ++ (d3 ++ s.drop n)))) := by
    conv_lhs => rw [hs, ← h1l]
    exact digitsN_complete d1 _ h1d
  rw [hd1]
  exact phoneSepSecond_complete s1 d2 s2 d3 (s.drop n) 3 hs1 h2l h2d hs2 h3l h3d hb

theorem all_get (P : Char → Bool) : ∀ (l : List Char) (i : Nat) (c : Char),
    l.all P = true → l.get? i = some c → P c = true := by
  intro l
  induction l with
  | nil => intro i c _ h; simp [List.get?] at h
  | cons x xs ih =>
    intro i c hall hg
    rw [List.all_cons, Bool.and_eq_true] at hall
    cases i with
    | zero =>
      simp only [List.get?] at hg
      injection hg with hg
      rw [← hg]
      exact hall.1
    | succ i' =>
      simp only [List.get?] at hg
      exact ih i' c hall.2 hg

theorem take_app_le : ∀ (a b : List Char) (n : Nat), n ≤ a.length →
    (a ++ b).take n = a.take n := by
  intro a
  induction a with
  | nil =>
    intro b n h
    simp at h
    subst h
    rfl
  | cons x xs ih =>
    intro b n h
    cases n with
    | zero => rfl
    | succ n' =>
      rw [List.cons_append, List.take_succ_cons, List.take_succ_cons, ih]
      rw [List.length_cons] at h
      omega

theorem all_take_blocked : ∀ (P : Char → Bool) (p r : List Char) (n : Nat),
    ((p ++ '[' :: r).take n).all P = true → P '[' = false → n ≤ p.length := by
  intro P p r n hall hP
  by_contra hlt
  push_neg at hlt
  have hget : ((p ++ '[' :: r).take n).get? p.length = some '[' := by
    rw [List.get?_take hlt]
    have h0 := get_app_right p ('[' :: r) 0
    rw [Nat.add_zero] at h0
    rw [h0]
    rfl
  have hPt := all_get P _ p.length '[' hall hget
  rw [hP] at hPt
  cases hPt

theorem emailShape_chars : ∀ l, EmailShape l →
    l.all (fun c => isLocalChar c || decide (c = '@')) = true := by
  intro l hs
  obtain ⟨a, b, t, hdec, _, hal, _, hbd, _, htl⟩ := hs
  subst hdec
  rw [List.all_append, Bool.and_eq_true]
  refine ⟨all_mono _ _ (fun c hc => by rw [hc]; rfl) a hal, ?_⟩
  rw [List.all_cons, Bool.and_eq_true]
  refine ⟨by decide, ?_⟩
  rw [List.all_append, Bool.and_eq_true]
  refine ⟨all_mono _ _ (fun c hc => by rw [domain_local c hc]; rfl) b hbd, ?_⟩
  rw [List.all_cons, Bool.and_eq_true]
  refine ⟨by decide, ?_⟩
  exact all_mono _ _ (fun c hc => by rw [domain_local c (tld_domain c hc)]; rfl) t htl

theorem sepPart_all : ∀ l, SepPart l → l.all isSep = true := by
  intro l h
  rcases h with h | h | h <;> subst h <;> decide

theorem phoneShape_chars : ∀ l, PhoneShape l →
    l.all (fun c => isDigit c || isSep c) = true := by
  intro l hs
  obtain ⟨d1, s1, d2, s2, d3, hdec, _, h1d, hs1, _, h2d, hs2, _, h3d⟩ := hs
  subst hdec
  have hd : ∀ x : List Char, x.all isDigit = true →
      x.all (fun c => isDigit c || isSep c) = true :=
    fun x hx => all_mono _ _ (fun c hc => by rw [hc]; rfl) x hx
  have hsep : ∀ x : List Char, SepPart x →
      x.all (fun c => isDigit c || isSep c) = true :=
    fun x hx => all_mono _ _ (fun c hc => by rw [hc]; simp) x (sepPart_all x hx)
  simp only [List.all_append, Bool.and_eq_true]
  exact ⟨⟨⟨⟨hd d1 h1d, hsep s1 hs1⟩, hd d2 h2d⟩, hsep s2 hs2⟩, hd d3 h3d⟩

theorem phoneShape_last : ∀ l, PhoneShape l → ∃ p c, l = p ++ [c] ∧ isDigit c = true := by
  intro l hs
  obtain ⟨d1, s1, d2, s2, d3, hdec, _, _, _, _, _, _, h3l, h3d⟩ := hs
  rcases List.eq_nil_or_concat d3 with h | ⟨d3', c, hc⟩
  · rw [h] at h3l; simp at h3l
  · rw [List.concat_eq_append] at hc
    refine ⟨d1 ++ s1 ++ d2 ++ s2 ++ d3', c, ?_, ?_⟩
    · rw [hdec, hc]; simp [List.append_assoc]
    · rw [hc, List.all_append] at h3d
      rw [Bool.and_eq_true] at h3d
      have := h3d.2
      rw [List.all_cons] at this
      rw [Bool.and_eq_true] at this
      exact this.1

theorem drop_pred : ∀ (c : Char) (cs : List Char) (n : Nat), 1 ≤ n →
    List.drop (n - 1) cs = List.drop n (c :: cs) := by
  intro c cs n h
  cases n with
  | zero => omega
  | succ n' => rw [Nat.succ_sub_one, List.drop_succ_cons]

theorem scanE_some (c : Char) (cs : List Char) (n : Nat) (h : matchEmail (c :: cs) = some n) :
    scanE (c :: cs) = emailTok ++ scanE (List.drop (n - 1) cs) := by
  rw [scanE, h]

theorem scanE_none (c : Char) (cs : List Char) (h : matchEmail (c :: cs) = none) :
    scanE (c :: cs) = c :: scanE cs := by
  rw [scanE, h]

theorem scanP_some (pw : Bool) (c : Char) (cs : List Char) (n : Nat)
    (h : matchPhone pw (c :: cs) = some n) :
    scanP pw (c :: cs) = phoneTok ++ scanP true (List.drop (n - 1) cs) := by
  rw [scanP, h]

theorem scanP_none (pw : Bool) (c : Char) (cs : List Char)
    (h : matchPhone pw (c :: cs) = none) :
    scanP pw (c :: cs) = c :: scanP (isWordChar c) cs := by
  rw [scanP, h]

theorem scanE_nil : scanE [] = [] := by rw [scanE]

theorem scanP_nil (pw : Bool) : scanP pw [] = [] := by rw [scanP]

theorem scanE_decomp : ∀ s : List Char,
    scanE s = s ∨ ∃ p r r', scanE s = p ++ '[' :: r ∧ s = p ++ r' := by
  intro s
  induction s with
  | nil => left; exact scanE_nil
  | cons c cs ih =>
    cases hm : matchEmail (c :: cs) with
    | some n =>
      right
      refine ⟨[], ['E', 'M', 'A', 'I', 'L', ']'] ++ scanE (List.drop (n - 1) cs),
        c :: cs, ?_, rfl⟩
      rw [scanE_some c cs n hm]
      rfl
    | none =>
      rcases ih with h | ⟨p, r, r', h1, h2⟩
      · left; rw [scanE_none c cs hm, h]
      · right
        refine ⟨c :: p, r, r', ?_, ?_⟩
        · rw [scanE_none c cs hm, h1]; rfl
        · rw [List.cons_append, ← h2]

theorem lastW_nil (pw : Bool) : lastW pw [] = pw := rfl

theorem lastW_cons : ∀ (pw : Bool) (c : Char) (p : List Char),
    lastW pw (c :: p) = lastW (isWordChar c) p := by
  intro pw c p
  cases p with
  | nil => simp [lastW, List.getLast?]
  | cons x xs =>
    rw [lastW, lastW, List.getLast?_cons_cons]
    cases hl : (x :: xs).getLast? with
    | none => simp at hl
    | some d => rfl

theorem scanP_decomp : ∀ (s : List Char) (pw : Bool),
    scanP pw s = s ∨ ∃ p b n, s = p ++ b ∧ matchPhone (lastW pw p) b = some n ∧
      scanP pw s = p ++ (phoneTok ++ scanP true (List.drop n b)) := by
  intro s
  induction s with
  | nil => intro pw; left; exact scanP_nil pw
  | cons c cs ih =>
    intro pw
    cases hm : matchPhone pw (c :: cs) with
    | some n =>
      right
      refine ⟨[], c :: cs, n, rfl, hm, ?_⟩
      rw [scanP_some pw c cs n hm]
      have h10 := (matchPhone_sound pw (c :: cs) n hm).2.2.2.2
      rw [drop_pred c cs n (by omega), List.nil_append]
    | none =>
      rcases ih (isWordChar c) with h | ⟨p, b, n, h1, h2, h3⟩
      · left; rw [scanP_none pw c cs hm, h]
      · right
        refine ⟨c :: p, b, n, by rw [List.cons_append, ← h1], ?_, ?_⟩
        · rw [lastW_cons]; exact h2
        · rw [scanP_none pw c cs hm, h3]; rfl

theorem drop_app_le : ∀ (a b : List Char) (n : Nat), n ≤ a.length →
    (a ++ b).drop n = a.drop n ++ b := by
  intro a
  induction a with
  | nil =>
    intro b n h
    simp at h
    subst h
    rfl
  | cons x xs ih =>
    intro b n h
    cases n with
    | zero => rfl
    | succ n' =>
      rw [List.cons_append, List.drop_succ_cons, List.drop_succ_cons, ih]
      rw [List.length_cons] at h
      omega

theorem head_app_ne : ∀ (a b : List Char), a ≠ [] → (a ++ b).head? = a.head? := by
  intro a b h
  cases a with
  | nil => exact absurd rfl h
  | cons x xs => rfl

theorem lastW_app_last : ∀ (pw : Bool) (P0 : List Char) (d : Char),
    lastW pw (P0 ++ [d]) = isWordChar d := by
  intro pw P0 d
  rw [lastW, List.getLast?_concat]

theorem matchEmail_transport :
    ∀ (u v : List Char), matchEmail v = none →
      (u = v ∨ ∃ p r r', u = p ++ '[' :: r ∧ v = p ++ r') →
      matchEmail u = none := by
  intro u v hv hcase
  rcases hcase with h | ⟨p, r, r', hu, hvp⟩
  · rw [h]; exact hv
  · cases hm : matchEmail u with
    | none => rfl
    | some n =>
      exfalso
      obtain ⟨hsh, hn1, hnle⟩ := matchEmail_sound u n hm
      have hchars := emailShape_chars _ hsh
      have hnp : n ≤ p.length :=
        all_take_blocked (fun c => isLocalChar c || decide (c = '@')) p r n
          (by rw [← hu]; exact hchars) (by decide)
      have htake : u.take n = v.take n := by
        rw [hu, hvp, take_app_le p _ n hnp, take_app_le p _ n hnp]
      have hshv : EmailShape (v.take n) := by rw [← htake]; exact hsh
      have hvlen : n ≤ v.length := by rw [hvp, List.length_append]; omega
      have hcv := matchEmail_complete v n hshv hvlen
      rw [hv] at hcv
      simp at hcv

theorem matchPhone_transport :
    ∀ (pw : Bool) (P b X : List Char) (nb : Nat),
      matchPhone pw (P ++ b) = none →
      matchPhone (lastW pw P) b = some nb →
      matchPhone pw (P ++ '[' :: X) = none := by
  intro pw P b X nb hv hb
  cases hm : matchPhone pw (P ++ '[' :: X) with
  | none => rfl
  | some n =>
    exfalso
    obtain ⟨hpw, hsh, hnw, hnle, h10⟩ := matchPhone_sound pw (P ++ '[' :: X) n hm
    have hchars := phoneShape_chars _ hsh
    have hnp : n ≤ P.length :=
      all_take_blocked (fun c => isDigit c || isSep c) P X n hchars (by decide)
    by_cases hEq : n = P.length
    · -- the candidate would end exactly where the later real phone match begins:
      -- its final digit is the character before that match, which the leading
      -- `\b` of the real match requires to be a non-word character.
      have htk : (P ++ '[' :: X).take n = P := by
        rw [hEq]
        exact takeLenApp P _
      rw [htk] at hsh
      obtain ⟨P0, d, hP0, hdig⟩ := phoneShape_last P hsh
      have hlw := (matchPhone_sound _ b nb hb).1
      rw [hP0, lastW_app_last] at hlw
      rw [digit_word d hdig] at hlw
      cases hlw
    · -- the candidate lies strictly inside P, so it transports to P ++ b,
      -- where the matcher was assumed to fail.
      have hlt : n < P.length := by omega
      have hne : P.drop n ≠ [] := by
        intro h0
        have hlen := congrArg List.length h0
        rw [List.length_drop] at hlen
        simp at hlen
        omega
      have htake : (P ++ '[' :: X).take n = (P ++ b).take n := by
        rw [take_app_le P _ n hnp, take_app_le P _ n hnp]
      have hnw' : noWordHead ((P ++ b).drop n) := by
        intro c' hc'
        apply hnw c'
        rw [drop_app_le P b n hnp, head_app_ne _ _ hne] at hc'
        rw [drop_app_le P _ n hnp, head_app_ne _ _ hne]
        exact hc'
      have hat : PhoneAt pw (P ++ b) n := by
        refine ⟨hpw, ?_, ?_, hnw'⟩
        · rw [List.length_append]; omega
        · rw [← htake]; exact hsh
      have hcv := matchPhone_complete pw (P ++ b) n hat
      rw [hv] at hcv
      simp at hcv

theorem matchEmail_head_notlocal (c : Char) (cs : List Char) (h : isLocalChar c = false) :
    matchEmail (c :: cs) = none := by
  rw [matchEmail_eq]
  have h0 : runCount isLocalChar (c :: cs) = 0 := by
    rw [runCount, h]
    rfl
  rw [if_pos h0]

theorem matchEmail_letters_bracket (a T : List Char)
    (ha : a.all isLocalChar = true) : matchEmail (a ++ ']' :: T) = none := by
  have hrc : runCount isLocalChar (a ++ ']' :: T) = a.length :=
    runCount_stop _ a ']' T ha (by decide)
  rw [matchEmail_eq, hrc]
  by_cases h0 : a.length = 0
  · rw [if_pos h0]
  · rw [if_neg h0]
    have hg : (a ++ ']' :: T).get? a.length = some ']' := by
      have h1 := get_app_right a (']' :: T) 0
      rw [Nat.add_zero] at h1
      rw [h1]
      rfl
    have hne : ¬ (a ++ ']' :: T).get? a.length = some '@' := by
      rw [hg]
      intro hcon
      injection hcon with hcon
      exact absurd hcon (by decide)
    rw [if_neg hne]

theorem matchPhone_head_nondigit (pw : Bool) (c : Char) (cs : List Char)
    (h : isDigit c = false) : matchPhone pw (c :: cs) = none := by
  rw [matchPhone_eq]
  by_cases hpw : pw = true
  · rw [if_pos hpw]
  · rw [if_neg hpw]
    have hd : digitsN 3 (c :: cs) = none := by
      show (if isDigit c = true then digitsN 2 cs else none) = none
      rw [if_neg (by rw [h]; exact Bool.false_ne_true)]
    rw [hd]

theorem matchPhone_true_none : ∀ s : List Char, matchPhone true s = none := by
  intro s
  rw [matchPhone_eq, if_pos rfl]

theorem phoneFree_flip : ∀ (t : List Char) (pw pw' : Bool),
    phoneFree pw t → (∀ c, t.head? = some c → isDigit c = false) → phoneFree pw' t := by
  intro t pw pw' h hh
  cases t with
  | nil => trivial
  | cons c cs =>
    obtain ⟨_, h2⟩ := h
    exact ⟨matchPhone_head_nondigit pw' c cs (hh c rfl), h2⟩

theorem scanE_id : ∀ s, emailFree s → scanE s = s := by
  intro s
  induction s with
  | nil => intro _; exact scanE_nil
  | cons c cs ih =>
    intro h
    obtain ⟨h1, h2⟩ := h
    rw [scanE_none c cs h1, ih h2]

theorem scanP_id : ∀ (s : List Char) (pw : Bool), phoneFree pw s → scanP pw s = s := by
  intro s
  induction s with
  | nil => intro pw _; exact scanP_nil pw
  | cons c cs ih =>
    intro pw h
    obtain ⟨h1, h2⟩ := h
    rw [scanP_none pw c cs h1, ih (isWordChar c) h2]

theorem emailFree_drop : ∀ (s : List Char) (k : Nat), emailFree s → emailFree (s.drop k) := by
  intro s
  induction s with
  | nil => intro k _; rw [List.drop_nil]; trivial
  | cons c cs ih =>
    intro k h
    obtain ⟨h1, h2⟩ := h
    cases k with
    | zero => exact ⟨h1, h2⟩
    | succ k' => rw [List.drop_succ_cons]; exact ih k' h2

theorem matchEmail_copy_scanE (c : Char) (cs : List Char)
    (h : matchEmail (c :: cs) = none) : matchEmail (c :: scanE cs) = none := by
  rcases scanE_decomp cs with hid | ⟨p, r, r', h1, h2⟩
  · rw [hid]; exact h
  · refine matchEmail_transport (c :: scanE cs) (c :: cs) h (Or.inr ?_)
    exact ⟨c :: p, r, r', by rw [h1]; rfl, by rw [h2]; rfl⟩

theorem matchEmail_copy_scanP (c : Char) (cs : List Char) (pw : Bool)
    (h : matchEmail (c :: cs) = none) : matchEmail (c :: scanP pw cs) = none := by
  rcases scanP_decomp cs pw with hid | ⟨p, b, nb, h1, h2, h3⟩
  · rw [hid]; exact h
  · refine matchEmail_transport _ (c :: cs) h (Or.inr ?_)
    refine ⟨c :: p, ['P', 'H', 'O', 'N', 'E', ']'] ++ scanP true (List.drop nb b), b,
      ?_, by rw [h1]; rfl⟩
    rw [h3]
    rfl

theorem matchPhone_copy (pw : Bool) (c : Char) (cs : List Char)
    (h : matchPhone pw (c :: cs) = none) :
    matchPhone pw (c :: scanP (isWordChar c) cs) = none := by
  rcases scanP_decomp cs (isWordChar c) with hid | ⟨p, b, nb, h1, h2, h3⟩
  · rw [hid]; exact h
  · have hv : matchPhone pw ((c :: p) ++ b) = none := by
      rw [List.cons_append, ← h1]
      exact h
    have hb : matchPhone (lastW pw (c :: p)) b = some nb := by
      rw [lastW_cons]
      exact h2
    have htr := matchPhone_transport pw (c :: p) b
      (['P', 'H', 'O', 'N', 'E', ']'] ++ scanP true (List.drop nb b)) nb hv hb
    rw [h3]
    exact htr

theorem emailFree_scanE_bound : ∀ (N : Nat) (s : List Char), s.length ≤ N →
    emailFree (scanE s) := by
  intro N
  induction N with
  | zero =>
    intro s h
    have hnil : s = [] := List.eq_nil_of_length_eq_zero (by omega)
    subst hnil
    rw [scanE_nil]
    trivial
  | succ N' ih =>
    intro s hlen
    cases s with
    | nil => rw [scanE_nil]; trivial
    | cons c cs =>
      rw [List.length_cons] at hlen
      cases hm : matchEmail (c :: cs) with
      | none =>
        rw [scanE_none c cs hm]
        exact ⟨matchEmail_copy_scanE c cs hm, ih cs (by omega)⟩
      | some n =>
        rw [scanE_some c cs n hm]
        have hrest : emailFree (scanE (List.drop (n - 1) cs)) := by
          refine ih _ ?_
          rw [List.length_drop]
          omega
        exact ⟨matchEmail_head_notlocal '[' _ (by decide),
               matchEmail_letters_bracket ['E', 'M', 'A', 'I', 'L'] _ (by decide),
               matchEmail_letters_bracket ['M', 'A', 'I', 'L'] _ (by decide),
               matchEmail_letters_bracket ['A', 'I', 'L'] _ (by decide),
               matchEmail_letters_bracket ['I', 'L'] _ (by decide),
               matchEmail_letters_bracket ['L'] _ (by decide),
               matchEmail_head_notlocal ']' _ (by decide),
               hrest⟩

theorem emailFree_scanE : ∀ s : List Char, emailFree (scanE s) := by
  intro s
  exact emailFree_scanE_bound s.length s (le_refl _)

theorem phoneFree_scanP_bound : ∀ (N : Nat) (s : List Char) (pw : Bool), s.length ≤ N →
    phoneFree pw (scanP pw s) := by
  intro N
  induction N with
  | zero =>
    intro s pw h
    have hnil : s = [] := List.eq_nil_of_length_eq_zero (by omega)
    subst hnil
    rw [scanP_nil]
    trivial
  | succ N' ih =>
    intro s pw hlen
    cases s with
    | nil => rw [scanP_nil]; trivial
    | cons c cs =>
      rw [List.length_cons] at hlen
      cases hm : matchPhone pw (c :: cs) with
      | none =>
        rw [scanP_none pw c cs hm]
        exact ⟨matchPhone_copy pw c cs hm, ih cs (isWordChar c) (by omega)⟩
      | some n =>
        rw [scanP_some pw c cs n hm]
        have h10 := (matchPhone_sound pw (c :: cs) n hm).2.2.2.2
        have hIH : phoneFree true (scanP true (List.drop (n - 1) cs)) := by
          refine ih _ true ?_
          rw [List.length_drop]
          omega
        have hhead : ∀ c', (scanP true (List.drop (n - 1) cs)).head? = some c' →
            isDigit c' = false := by
          intro c' hc'
          cases hx : List.drop (n - 1) cs with
          | nil => rw [hx, scanP_nil] at hc'; cases hc'
          | cons d ds =>
            rw [hx, scanP_none true d ds (matchPhone_true_none _)] at hc'
            injection hc' with hc'
            subst hc'
            have hnw := (matchPhone_sound pw (c :: cs) n hm).2.2.1
            have hword : isWordChar d = false := by
              apply hnw d
              rw [← drop_pred c cs n (by omega), hx]
              rfl
            cases hdig : isDigit d with
            | false => rfl
            | true => rw [digit_word d hdig] at hword; cases hword
        exact ⟨matchPhone_head_nondigit pw '[' _ (by decide),
               matchPhone_head_nondigit _ 'P' _ (by decide),
               matchPhone_head_nondigit _ 'H' _ (by decide),
               matchPhone_head_nondigit _ 'O' _ (by decide),
               matchPhone_head_nondigit _ 'N' _ (by decide),
               matchPhone_head_nondigit _ 'E' _ (by decide),
               matchPhone_head_nondigit _ ']' _ (by decide),
               phoneFree_flip _ true _ hIH hhead⟩

theorem phoneFree_scanP : ∀ (s : List Char) (pw : Bool), phoneFree pw (scanP pw s) := by
  intro s pw
  exact phoneFree_scanP_bound s.length s pw (le_refl _)

theorem emailFree_scanP_bound : ∀ (N : Nat) (s : List Char) (pw : Bool), s.length ≤ N →
    emailFree s → emailFree (scanP pw s) := by
  intro N
  induction N with
  | zero =>
    intro s pw h _
    have hnil : s = [] := List.eq_nil_of_length_eq_zero (by omega)
    subst hnil
    rw [scanP_nil]
    trivial
  | succ N' ih =>
    intro s pw hlen hE
    cases s with
    | nil => rw [scanP_nil]; trivial
    | cons c cs =>
      rw [List.length_cons] at hlen
      obtain ⟨hE1, hE2⟩ := hE
      cases hm : matchPhone pw (c :: cs) with
      | none =>
        rw [scanP_none pw c cs hm]
        exact ⟨matchEmail_copy_scanP c cs (isWordChar c) hE1,
               ih cs (isWordChar c) (by omega) hE2⟩
      | some n =>
        rw [scanP_some pw c cs n hm]
        have hrest : emailFree (scanP true (List.drop (n - 1) cs)) := by
          refine ih _ true ?_ (emailFree_drop cs (n - 1) hE2)
          rw [List.length_drop]
          omega
        exact ⟨matchEmail_head_notlocal '[' _ (by decide),
               matchEmail_letters_bracket ['P', 'H', 'O', 'N', 'E'] _ (by decide),
               matchEmail_letters_bracket ['H', 'O', 'N', 'E'] _ (by decide),
               matchEmail_letters_bracket ['O', 'N', 'E'] _ (by decide),
               matchEmail_letters_bracket ['N', 'E'] _ (by decide),
               matchEmail_letters_bracket ['E'] _ (by decide),
               matchEmail_head_notlocal ']' _ (by decide),
               hrest⟩

theorem emailFree_scanP : ∀ (s : List Char) (pw : Bool), emailFree s →
    emailFree (scanP pw s) := by
  intro s pw h
  exact emailFree_scanP_bound s.length s pw (le_refl _) h

theorem redactL_idem : ∀ s : List Char, redactL (redactL s) = redactL s := by
  intro s
  rw [redactL, redactL]
  have hEz : emailFree (scanP false (scanE s)) :=
    emailFree_scanP (scanE s) false (emailFree_scanE s)
  have hPz : phoneFree false (scanP false (scanE s)) := phoneFree_scanP (scanE s) false
  rw [scanE_id _ hEz, scanP_id _ false hPz]

theorem binIndex_nonneg : ∀ q : ℚ, 0 ≤ binIndex q := by
  intro q
  rw [binIndex]
  omega

theorem binIndex_le : ∀ q : ℚ, binIndex q ≤ 10 := by
  intro q
  rw [binIndex]
  omega

theorem binIndex_clamp_free : ∀ q : ℚ, -1 ≤ q → q ≤ 1 →
    binIndex q = jsRound ((q + 1) * 5) := by
  intro q h1 h2
  have hlo : 0 ≤ jsRound ((q + 1) * 5) := by
    rw [jsRound]
    apply Int.le_floor.mpr
    push_cast
    nlinarith
  have hhi : jsRound ((q + 1) * 5) ≤ 10 := by
    rw [jsRound]
    have hf : ⌊(q + 1) * 5 + 1 / 2⌋ < (11 : ℤ) := by
      apply Int.floor_lt.mpr
      push_cast
      nlinarith
    omega
  rw [binIndex]
  omega

theorem sum_incrBin : ∀ (b : List ℕ) (i : ℕ), i < b.length → (incrBin b i).sum = b.sum + 1 := by
  intro b
  induction b with
  | nil => intro i h; simp at h
  | cons x xs ih =>
    intro i h
    cases i with
    | zero =>
      show ((x :: xs).set 0 ((x :: xs).getD 0 0 + 1)).sum = (x :: xs).sum + 1
      rw [List.getD_cons_zero]
      show ((x + 1) :: xs).sum = (x :: xs).sum + 1
      rw [List.sum_cons, List.sum_cons]
      omega
    | succ i' =>
      show ((x :: xs).set (i' + 1) ((x :: xs).getD (i' + 1) 0 + 1)).sum = (x :: xs).sum + 1
      rw [List.getD_cons_succ]
      show (x :: xs.set i' (xs.getD i' 0 + 1)).sum = (x :: xs).sum + 1
      rw [List.sum_cons, List.sum_cons]
      have hih := ih i' (by rw [List.length_cons] at h; omega)
      rw [incrBin] at hih
      omega

theorem getD_set_ne : ∀ (b : List ℕ) (i j a : ℕ), i ≠ j →
    (b.set i a).getD j 0 = b.getD j 0 := by
  intro b
  induction b with
  | nil => intro i j a _; rfl
  | cons x xs ih =>
    intro i j a hne
    cases i with
    | zero =>
      cases j with
      | zero => exact absurd rfl hne
      | succ j' =>
        show (a :: xs).getD (j' + 1) 0 = (x :: xs).getD (j' + 1) 0
        rw [List.getD_cons_succ, List.getD_cons_succ]
    | succ i' =>
      cases j with
      | zero =>
        show (x :: xs.set i' a).getD 0 0 = (x :: xs).getD 0 0
        rw [List.getD_cons_zero, List.getD_cons_zero]
      | succ j' =>
        show (x :: xs.set i' a).getD (j' + 1) 0 = (x :: xs).getD (j' + 1) 0
        rw [List.getD_cons_succ, List.getD_cons_succ]
        exact ih i' j' a (by omega)

theorem getD_set_self : ∀ (b : List ℕ) (i a : ℕ), i < b.length →
    (b.set i a).getD i 0 = a := by
  intro b
  induction b with
  | nil => intro i a h; simp at h
  | cons x xs ih =>
    intro i a h
    cases i with
    | zero =>
      show (a :: xs).getD 0 0 = a
      rw [List.getD_cons_zero]
    | succ i' =>
      show (x :: xs.set i' a).getD (i' + 1) 0 = a
      rw [List.getD_cons_succ]
      exact ih i' a (by rw [List.length_cons] at h; omega)

theorem incrBin_comm : ∀ (b : List ℕ) (i j : ℕ),
    incrBin (incrBin b i) j = incrBin (incrBin b j) i := by
  intro b i j
  by_cases hij : i = j
  · subst hij; rfl
  · show (b.set i (b.getD i 0 + 1)).set j ((b.set i (b.getD i 0 + 1)).getD j 0 + 1) =
        (b.set j (b.getD j 0 + 1)).set i ((b.set j (b.getD j 0 + 1)).getD i 0 + 1)
    rw [getD_set_ne b i j (b.getD i 0 + 1) hij,
        getD_set_ne b j i (b.getD j 0 + 1) (Ne.symm hij)]
    exact List.set_comm _ _ b hij

theorem ingest_inv : ∀ (vader : String → ℚ) (postCol : String) (rows : List CsvRow)
    (b : List ℕ), b.length = 11 →
    (rows.foldl (processRow vader postCol) b).length = 11 ∧
    (rows.foldl (processRow vader postCol) b).sum = b.sum + rows.length := by
  intro vader postCol rows
  induction rows with
  | nil => intro b hb; exact ⟨hb, by simp⟩
  | cons r rs ih =>
    intro b hb
    rw [List.foldl_cons]
    have hlen : (processRow vader postCol b r).length = 11 := by
      rw [processRow, incrBin, List.length_set, hb]
    obtain ⟨h1, h2⟩ := ih (processRow vader postCol b r) hlen
    refine ⟨h1, ?_⟩
    rw [h2]
    have hsum : (processRow vader postCol b r).sum = b.sum + 1 := by
      rw [processRow]
      apply sum_incrBin
      rw [hb]
      have h1b := binIndex_nonneg (analyzeText vader (rowText r postCol)).1
      have h2b := binIndex_le (analyzeText vader (rowText r postCol)).1
      omega
    rw [hsum, List.length_cons]
    omega

theorem ingest_foldl_perm : ∀ (vader : String → ℚ) (postCol : String)
    (l1 l2 : List CsvRow), l1.Perm l2 →
    ∀ b : List ℕ, l1.foldl (processRow vader postCol) b =
      l2.foldl (processRow vader postCol) b := by
  intro vader postCol l1 l2 hp
  induction hp with
  | nil => intro b; rfl
  | cons x _ ih => intro b; rw [List.foldl_cons, List.foldl_cons]; exact ih _
  | swap x y l =>
    intro b
    rw [List.foldl_cons, List.foldl_cons, List.foldl_cons, List.foldl_cons]
    have hc : processRow vader postCol (processRow vader postCol b y) x =
        processRow vader postCol (processRow vader postCol b x) y := by
      show incrBin (incrBin b _) _ = incrBin (incrBin b _) _
      exact incrBin_comm b _ _
    rw [hc]
  | trans _ _ ih1 ih2 => intro b; rw [ih1 b, ih2 b]

theorem redact_dualpattern_eval : redact "123-456-7890@mail.com" = "[EMAIL]" := by
  have hsplit : "123-456-7890@mail.com".data =
      '1' :: "23-456-7890@mail.com".data := by decide
  have hm : matchEmail ('1' :: "23-456-7890@mail.com".data) = some 21 := by decide
  have hdrop : List.drop (21 - 1) "23-456-7890@mail.com".data = [] := by decide
  rw [redact, redactL, hsplit, scanE_some _ _ 21 hm, hdrop, scanE_nil, List.append_nil,
    emailTok]
  rw [scanP_none _ _ _ (by decide)]
  rw [scanP_none _ _ _ (by decide)]
  rw [scanP_none _ _ _ (by decide)]
  rw [scanP_none _ _ _ (by decide)]
  rw [scanP_none _ _ _ (by decide)]
  rw [scanP_none _ _ _ (by decide)]
  rw [scanP_none _ _ _ (by decide)]
  rw [scanP_nil]

/-! ## Claim theorems -/

/-- C1: for every score `s` the binner computes `round((s + 1) * 5)` clamped
into `[0, 10]` (`binIndex` is by definition
`min 10 (max 0 (jsRound ((s + 1) * 5)))`, line 69 of `src/index.js` and
line 46 of `src/routes/sentiment.js`); every result, also for an
out-of-contract score such as 1.3, lies in `[0, 10]`; on `[-1, 1]` the clamp
is inert, so the index is exactly the rounded rescaling; and
`bin(-1) = 0`, `bin(0) = 5`, `bin(1) = 10`, `bin(1.3) = 10`. -/
theorem C1_binner_formula_and_bounds :
    (∀ s : ℚ, 0 ≤ binIndex s ∧ binIndex s ≤ 10) ∧
    binIndex (-1) = 0 ∧ binIndex 0 = 5 ∧ binIndex 1 = 10 ∧ binIndex (13 / 10) = 10 ∧
    (∀ s : ℚ, -1 ≤ s → s ≤ 1 → binIndex s = jsRound ((s + 1) * 5)) := by
  refine ⟨fun s => ⟨binIndex_nonneg s, binIndex_le s⟩, ?_, ?_, ?_, ?_, binIndex_clamp_free⟩
  · norm_num [binIndex, jsRound]
  · norm_num [binIndex, jsRound]
  · norm_num [binIndex, jsRound]
  · norm_num [binIndex, jsRound]

/-- C1 witness: the in-range clause of the claim applied at the concrete
score `1/2`, with both range hypotheses discharged numerically. -/
theorem C1_binner_witness :
    (-1 ≤ (1 : ℚ) / 2 ∧ (1 : ℚ) / 2 ≤ 1) ∧
    binIndex (1 / 2) = jsRound ((1 / 2 + 1) * 5) :=
  ⟨⟨by norm_num, by norm_num⟩,
   C1_binner_formula_and_bounds.2.2.2.2.2 (1 / 2) (by norm_num) (by norm_num)⟩

/-- C2: an ingestion run starts from eleven zero counters
(`new Array(11).fill(0)`), the result always has exactly 11 entries, and its
sum equals the number of rows processed — each row, including rows whose
text is missing or empty, increments exactly one in-range counter. -/
theorem C2_histogram_sum :
    ∀ (vader : String → ℚ) (postCol : String) (rows : List CsvRow),
      ingestBins vader postCol [] = List.replicate 11 0 ∧
      (ingestBins vader postCol rows).length = 11 ∧
      (ingestBins vader postCol rows).sum = rows.length := by
  intro vader postCol rows
  have h := ingest_inv vader postCol rows (List.replicate 11 0) (by decide)
  refine ⟨rfl, ?_, ?_⟩
  · rw [ingestBins]
    exact h.1
  · rw [ingestBins, h.2]
    simp

/-- C3: on a row stream that fails mid-way (`errored` terminator), neither
ingestion handler inserts an Aggregate Record — that half of the claim
holds.  But neither handler registers an `'error'` listener, and the
`try`/`catch` in `src/index.js` only guards synchronous stream setup, so the
outcome is `crash`: an uncaught exception with no response ever sent — not
the explicit ingestion error the claim promises, and exactly the silent
non-response it rules out. -/
theorem C3_stream_error_no_insert_no_response :
    ∀ (vader : String → ℚ) (insert : String → List ℕ → Except String ℕ)
      (file : String) (postColumn chartTitle : Option String)
      (rows : List CsvRow) (msg : String),
      indexIngest vader insert (some file) postColumn chartTitle
        ⟨rows, StreamTerm.errored msg⟩ = (Outcome.crash, none) ∧
      routesIngest vader insert (some file) postColumn chartTitle
        ⟨rows, StreamTerm.errored msg⟩ = (Outcome.crash, none) := by
  intro vader insert file postColumn chartTitle rows msg
  exact ⟨rfl, rfl⟩

/-- C4: a row whose configured column is absent, or holds the empty string,
resolves to empty text (the `|| ''` fallback), is scored neutral (0) by the
`!text` guard of `analyzeText` without consulting the scorer, lands in
bucket 5, and still increments the total count — processing is total, so
the run never aborts. -/
theorem C4_missing_column_neutral :
    ∀ (vader : String → ℚ) (row : CsvRow) (postCol : String) (bins : List ℕ),
      (getCol (normalizeRow row) postCol = none ∨
       getCol (normalizeRow row) postCol = some "") →
      bins.length = 11 →
      rowText row postCol = "" ∧
      (analyzeText vader (rowText row postCol)).1 = 0 ∧
      (binIndex (analyzeText vader (rowText row postCol)).1).toNat = 5 ∧
      (processRow vader postCol bins row).sum = bins.sum + 1 ∧
      (processRow vader postCol bins row).getD 5 0 = bins.getD 5 0 + 1 := by
  intro vader row postCol bins hcol hlen
  have htext : rowText row postCol = "" := by
    rw [rowText]
    rcases hcol with h | h
    · rw [h]
    · rw [h]
      decide
  have hscore : (analyzeText vader (rowText row postCol)).1 = 0 := by
    rw [htext]
    rfl
  have h5 : binIndex 0 = 5 := by norm_num [binIndex, jsRound]
  have hidx : (binIndex (analyzeText vader (rowText row postCol)).1).toNat = 5 := by
    rw [hscore, h5]
    rfl
  refine ⟨htext, hscore, hidx, ?_, ?_⟩
  · rw [processRow, hidx]
    exact sum_incrBin bins 5 (by omega)
  · rw [processRow, hidx, incrBin]
    exact getD_set_self bins 5 _ (by omega)

/-- C4 witness: the claim applied to a concrete row with no `post` column,
a scorer that is nowhere zero (showing the neutral score comes from the
guard, not the scorer), and the initial zero histogram. -/
theorem C4_missing_column_witness :
    rowText [("title", "x")] "post" = "" ∧
    (analyzeText (fun _ => 1) (rowText [("title", "x")] "post")).1 = 0 ∧
    (binIndex (analyzeText (fun _ => 1) (rowText [("title", "x")] "post")).1).toNat = 5 ∧
    (processRow (fun _ => 1) "post" (List.replicate 11 0) [("title", "x")]).sum =
      (List.replicate 11 0 : List ℕ).sum + 1 ∧
    (processRow (fun _ => 1) "post" (List.replicate 11 0) [("title", "x")]).getD 5 0 =
      (List.replicate 11 0 : List ℕ).getD 5 0 + 1 :=
  C4_missing_column_neutral (fun _ => 1) [("title", "x")] "post" (List.replicate 11 0)
    (Or.inl (by decide)) (by decide)

/-- C5: redaction is idempotent — applying the e-mail-then-phone masking
pass of `analyzeText` a second time leaves already-redacted output
unchanged: `redact (redact x) = redact x` for every text `x`. -/
theorem C5_redact_idempotent : ∀ x : String, redact (redact x) = redact x := by
  intro x
  show String.mk (redactL (String.mk (redactL x.data)).data) = String.mk (redactL x.data)
  exact congrArg String.mk (redactL_idem x.data)

/-- C6: the claim fails as stated on the hub route: when the storage insert
rejects at end of stream, `src/routes/sentiment.js` has no `try`/`catch`
around the `await`, so the rejection is unhandled and the caller receives no
response at all — `crash`, not a failure response with a reason. -/
theorem C6_counterexample :
    routesIngest (fun _ => 0) (fun _ _ => Except.error "connection lost")
      (some "data.csv") none none ⟨[], StreamTerm.ended⟩ = (Outcome.crash, none) := rfl

/-- C6 amended: in the standalone server (`src/index.js`) a failing insert
yields an explicit 500 response whose message includes the failure reason,
no id, and nothing persisted; the hub route yields no response at all
(unhandled rejection) — though it, too, returns no id and persists nothing. -/
theorem C6_storage_failure_amended :
    ∀ (vader : String → ℚ) (e file : String) (postColumn chartTitle : Option String)
      (rows : List CsvRow),
      indexIngest vader (fun _ _ => Except.error e) (some file) postColumn chartTitle
        ⟨rows, StreamTerm.ended⟩ =
        (Outcome.fail 500 ("Database Persistence Error: " ++ e), none) ∧
      routesIngest vader (fun _ _ => Except.error e) (some file) postColumn chartTitle
        ⟨rows, StreamTerm.ended⟩ = (Outcome.crash, none) := by
  intro vader e file postColumn chartTitle rows
  exact ⟨rfl, rfl⟩

/-- C7: the claim fails as stated on the hub route: with no file supplied,
`src/routes/sentiment.js` dereferences `req.file.path` without a guard, so
the handler throws and the caller receives no 4xx response — `crash`. -/
theorem C7_counterexample :
    routesIngest (fun _ => 0) (fun _ _ => Except.ok 1) none none none
      ⟨[], StreamTerm.ended⟩ = (Outcome.crash, none) := rfl

/-- C7 amended: the standalone server answers a missing file with the 400
response `No CSV file detected.` and never touches the stream (the result
is independent of the stream trace); the hub route throws instead and sends
nothing. -/
theorem C7_no_file_amended :
    ∀ (vader : String → ℚ) (insert : String → List ℕ → Except String ℕ)
      (postColumn chartTitle : Option String) (tr : StreamTrace),
      indexIngest vader insert none postColumn chartTitle tr =
        (Outcome.fail 400 "No CSV file detected.", none) ∧
      routesIngest vader insert none postColumn chartTitle tr =
        (Outcome.crash, none) := by
  intro vader insert postColumn chartTitle tr
  exact ⟨rfl, rfl⟩

/-- C8: the claim's final clause fails as stated on the hub route: a
transient storage error during the display lookup is an unhandled rejection
there — no response at all, which is not "reported differently from
not-found"; it is not reported. -/
theorem C8_counterexample :
    routesDisplay (Except.error "connection lost") = DisplayOutcome.crash := rfl

/-- C8 amended: both display endpoints answer an unknown id with a distinct
404 not-found response (never a zero-filled histogram, never a generic
failure); a found record is returned as the row itself; the standalone
server reports a storage error as a distinct 500 with the reason, while the
hub route's storage error produces no response at all. -/
theorem C8_display_amended :
    indexDisplay (Except.ok none) = DisplayOutcome.fail 404 "Dataset not found." ∧
    routesDisplay (Except.ok none) = DisplayOutcome.fail 404 "Record not found" ∧
    (∀ e, indexDisplay (Except.error e) = DisplayOutcome.fail 500 ("Query Error: " ++ e)) ∧
    (∀ e, routesDisplay (Except.error e) = DisplayOutcome.crash) ∧
    (∀ r, indexDisplay (Except.ok (some r)) = DisplayOutcome.row r) ∧
    (∀ r, routesDisplay (Except.ok (some r)) = DisplayOutcome.row r) :=
  ⟨rfl, rfl, fun _ => rfl, fun _ => rfl, fun _ => rfl, fun _ => rfl⟩

/-- C9: the histogram of one ingestion run is invariant under permutation of
the input rows: the per-row counter increments commute, so any reordering of
the row list folds to the same 11-bucket count vector. -/
theorem C9_permutation_invariant :
    ∀ (vader : String → ℚ) (postCol : String) (rows1 rows2 : List CsvRow),
      rows1.Perm rows2 →
      ingestBins vader postCol rows1 = ingestBins vader postCol rows2 := by
  intro vader postCol rows1 rows2 hp
  rw [ingestBins, ingestBins]
  exact ingest_foldl_perm vader postCol rows1 rows2 hp _

/-- C9 witness: the claim applied to a concrete two-row swap. -/
theorem C9_permutation_witness :
    ([[("post", "a")], [("post", "b")]] : List CsvRow).Perm
      [[("post", "b")], [("post", "a")]] ∧
    ingestBins (fun _ => 0) "post" [[("post", "a")], [("post", "b")]] =
      ingestBins (fun _ => 0) "post" [[("post", "b")], [("post", "a")]] :=
  ⟨List.Perm.swap _ _ _,
   C9_permutation_invariant (fun _ => 0) "post" _ _ (List.Perm.swap _ _ _)⟩

/-- C10: e-mail redaction runs on the whole text before phone redaction
(`redactL` is by definition the phone scan composed after the e-mail scan),
so the dual-pattern text `123-456-7890@mail.com`, whose digit-run local part
also matches the phone pattern, becomes `[EMAIL]`; and every phone match
consists solely of digits and separators, so the `[PHONE]` substitution can
never touch the letters or brackets of an already-inserted `[EMAIL]`
placeholder. -/
theorem C10_email_redaction_first :
    redact "123-456-7890@mail.com" = "[EMAIL]" ∧
    (∀ s : List Char, redactL s = scanP false (scanE s)) ∧
    (∀ (pw : Bool) (s : List Char) (n : Nat), matchPhone pw s = some n →
      (s.take n).all (fun c => isDigit c || isSep c) = true) := by
  refine ⟨redact_dualpattern_eval, fun s => rfl, ?_⟩
  intro pw s n h
  exact phoneShape_chars _ (matchPhone_sound pw s n h).2.1

/-- C10 witness: the phone-chars clause applied to a concrete match of
length 11, with the match hypothesis discharged by evaluation. -/
theorem C10_email_redaction_witness :
    ("123.4567890".data.take 11).all (fun c => isDigit c || isSep c) = true :=
  C10_email_redaction_first.2.2 false "123.4567890".data 11 (by decide)
